import Mathlib

/-
Verification development for plotter.c (Task Manager function plotter).

The memory ledger of the program is a singly linked list of memoryBlock
nodes; reallocMemory grows or shrinks the committed memory towards a
requested total, destroyMemory together with the caller's final free
tears the ledger down.  The list is embedded as a Lean list of nodes in
link order; each node carries an identity so that allocation and release
of the node storage itself can be tracked.  All mallocs are assumed to
succeed.  The single-precision float arithmetic in the chunked-growth
branch is modelled exactly: converting a natural number to float rounds
it to 24 significant bits (round to nearest, ties to even), and the
subsequent division by the power of two 1024*1024 is exact.
-/

/-- One memoryBlock node of plotter.c: sz is the byte count, mem records
whether the malloc handle is non-null, and id is the identity of the node
storage itself (the next pointer is represented by list order). -/
structure Node where
  id : ℕ
  sz : ℕ
  mem : Bool
deriving DecidableEq

/-- A release action performed during teardown: freeing a node's memory
handle, or freeing the node storage itself. -/
inductive Event where
  | freeMem : ℕ → Event
  | freeNode : ℕ → Event
deriving DecidableEq

/-- Fuel-driven computation of the shift k such that the leading window
n / 2 ^ k of a number n ≥ 2 ^ 24 lies in [2 ^ 23, 2 ^ 24).  The fuel is
instantiated with n itself, which is always enough. -/
def shiftAux : ℕ → ℕ → ℕ
  | 0, _ => 0
  | fuel + 1, m => if m < 2 ^ 24 then 0 else shiftAux fuel (m / 2) + 1

/-- floatRound n is the real value of (float)n for a natural number n:
n itself when it is representable in the 24-bit significand, otherwise
n rounded to the nearest multiple of the ulp 2 ^ k (ties to even). -/
def floatRound (n : ℕ) : ℕ :=
  if n ≤ 2 ^ 24 then n
  else if n % 2 ^ shiftAux n n < 2 ^ (shiftAux n n - 1) then
    n / 2 ^ shiftAux n n * 2 ^ shiftAux n n
  else if 2 ^ (shiftAux n n - 1) < n % 2 ^ shiftAux n n then
    (n / 2 ^ shiftAux n n + 1) * 2 ^ shiftAux n n
  else if n / 2 ^ shiftAux n n % 2 = 0 then
    n / 2 ^ shiftAux n n * 2 ^ shiftAux n n
  else (n / 2 ^ shiftAux n n + 1) * 2 ^ shiftAux n n

/-- The C cast (unsigned)x for a nonnegative float value: truncation
towards zero. -/
def truncToNat (q : ℚ) : ℕ := (⌊q⌋).toNat

/-- The exact value of the float expression (float)delta / (1024*1024)
from line 92 of plotter.c: the conversion of delta rounds, the division
by a power of two is then exact. -/
def floatDivMiB (delta : ℕ) : ℚ := (floatRound delta : ℚ) / ((1024 * 1024 : ℕ) : ℚ)

/-- Lines 92-96 of plotter.c: iterations = (float)delta / (1024*1024);
spans = (unsigned)iterations; if (iterations != spans) spans++.  The
comparison converts spans back to float. -/
def spansOf (delta : ℕ) : ℕ :=
  if floatDivMiB delta ≠ ((floatRound (truncToNat (floatDivMiB delta)) : ℕ) : ℚ) then
    truncToNat (floatDivMiB delta) + 1
  else truncToNat (floatDivMiB delta)

lemma shiftAux_spec : ∀ fuel m, m < 2 ^ fuel * 2 ^ 24 →
    m / 2 ^ shiftAux fuel m < 2 ^ 24 ∧ (2 ^ 23 ≤ m → 2 ^ 23 ≤ m / 2 ^ shiftAux fuel m) := by
  intro fuel
  induction fuel with
  | zero =>
    intro m hm
    rw [pow_zero, one_mul] at hm
    simp only [shiftAux, pow_zero, Nat.div_one]
    exact ⟨hm, fun h => h⟩
  | succ fuel ih =>
    intro m hm
    by_cases h24 : m < 2 ^ 24
    · simp only [shiftAux, if_pos h24, pow_zero, Nat.div_one]
      exact ⟨h24, fun h => h⟩
    · have hm2 : m / 2 < 2 ^ fuel * 2 ^ 24 := by
        have hm' : m < 2 ^ fuel * 2 ^ 24 * 2 := by
          rw [pow_succ] at hm
          calc m < 2 ^ fuel * 2 * 2 ^ 24 := hm
            _ = 2 ^ fuel * 2 ^ 24 * 2 := by ring
        exact (Nat.div_lt_iff_lt_mul (by norm_num)).2 hm'
      have hrec := ih (m / 2) hm2
      have hsh : shiftAux (fuel + 1) m = shiftAux fuel (m / 2) + 1 := by
        simp only [shiftAux, if_neg h24]
      have hdiv : m / 2 ^ (shiftAux fuel (m / 2) + 1) = m / 2 / 2 ^ shiftAux fuel (m / 2) := by
        rw [Nat.div_div_eq_div_mul]
        congr 1
        rw [pow_succ]
        ring
      rw [hsh, hdiv]
      refine ⟨hrec.1, fun _ => hrec.2 ?_⟩
      rw [Nat.le_div_iff_mul_le (by norm_num : (0:ℕ) < 2)]
      calc (2:ℕ) ^ 23 * 2 = 2 ^ 24 := by norm_num
        _ ≤ m := not_lt.mp h24

lemma floatRound_exact {n : ℕ} (h : n ≤ 2 ^ 24) : floatRound n = n := by
  unfold floatRound
  rw [if_pos h]

lemma floatRound_big {n : ℕ} (h : 2 ^ 24 < n) : 2 ^ 23 ≤ floatRound n := by
  unfold floatRound
  rw [if_neg (by omega)]
  have hlt : n < 2 ^ n * 2 ^ 24 :=
    lt_of_lt_of_le (Nat.lt_two_pow n) (le_mul_of_one_le_right (Nat.zero_le _) (by norm_num))
  have hq23 : 2 ^ 23 ≤ n / 2 ^ shiftAux n n := by
    refine (shiftAux_spec n n hlt).2 ?_
    calc (2:ℕ) ^ 23 ≤ 2 ^ 24 := by norm_num
      _ ≤ n := le_of_lt h
  have h2k : 1 ≤ 2 ^ shiftAux n n := Nat.one_le_two_pow
  have base : 2 ^ 23 ≤ n / 2 ^ shiftAux n n * 2 ^ shiftAux n n := by
    calc (2:ℕ) ^ 23 = 2 ^ 23 * 1 := (mul_one _).symm
      _ ≤ n / 2 ^ shiftAux n n * 2 ^ shiftAux n n := Nat.mul_le_mul hq23 h2k
  have step : n / 2 ^ shiftAux n n * 2 ^ shiftAux n n ≤
      (n / 2 ^ shiftAux n n + 1) * 2 ^ shiftAux n n :=
    Nat.mul_le_mul_right _ (Nat.le_succ _)
  split_ifs
  · exact base
  · exact le_trans base step
  · exact base
  · exact le_trans base step

lemma floatRound_gtMiB {n : ℕ} (h : 1024 * 1024 < n) : 1024 * 1024 < floatRound n := by
  by_cases h24 : n ≤ 2 ^ 24
  · rw [floatRound_exact h24]
    exact h
  · have := floatRound_big (not_le.mp h24)
    have h23 : (1024 * 1024 : ℕ) < 2 ^ 23 := by norm_num
    omega

lemma truncToNat_natCast (n : ℕ) : truncToNat (n : ℚ) = n := by
  unfold truncToNat
  rw [Int.floor_natCast]
  exact Int.toNat_natCast n

lemma truncToNat_div (a b : ℕ) : truncToNat ((a : ℚ) / (b : ℚ)) = a / b := by
  unfold truncToNat
  rw [Int.floor_toNat, Nat.floor_div_nat, Nat.floor_natCast]

lemma one_lt_floatDivMiB {d : ℕ} (h : 1024 * 1024 < d) : (1 : ℚ) < floatDivMiB d := by
  unfold floatDivMiB
  rw [lt_div_iff₀ (by norm_num)]
  rw [one_mul]
  exact_mod_cast floatRound_gtMiB h

lemma one_le_truncToNat {d : ℕ} (h : 1024 * 1024 < d) : 1 ≤ truncToNat (floatDivMiB d) := by
  unfold truncToNat
  have h1 : (1 : ℤ) ≤ ⌊floatDivMiB d⌋ :=
    Int.le_floor.2 (by exact_mod_cast (one_lt_floatDivMiB h).le)
  omega

lemma spansOf_two_le {d : ℕ} (h : 1024 * 1024 < d) : 2 ≤ spansOf d := by
  by_cases hs : truncToNat (floatDivMiB d) = 1
  · unfold spansOf
    rw [hs, floatRound_exact (by norm_num : (1:ℕ) ≤ 2 ^ 24)]
    rw [if_pos]
    · push_cast
      exact ne_of_gt (one_lt_floatDivMiB h)
  · have h1 := one_le_truncToNat h
    unfold spansOf
    split_ifs <;> omega

/-- Lines 104-107 and 109-113 of plotter.c, the non-split growth step for a
delta of at most 1 MiB: if the head's handle is null it is filled with a
fresh allocation of delta bytes, and then (unconditionally) a brand-new
node of delta bytes is linked in immediately after the head.  c is the
supply of fresh node identities. -/
def growStep (c : ℕ) (delta : ℕ) : List Node → ℕ × List Node
  | [] => (c, [])
  | h :: t =>
    (c + 1,
      (if h.mem = true then h else { h with mem := true, sz := delta }) ::
        { id := c, sz := delta, mem := true } :: t)

/-- Lines 119-150 of plotter.c for the blocks after the one the prev
pointer rests on (prev is non-null): walk the list releasing whole live
blocks (unlinking their nodes) while they fit in the remaining delta,
shrink one block in place when it exceeds the remaining delta, skip dead
blocks, and stop when delta reaches zero or the list ends. -/
def shrinkTail : ℕ → List Node → List Node
  | _, [] => []
  | d, b :: bs =>
    if d = 0 then b :: bs
    else if b.mem = true then
      if b.sz ≤ d then shrinkTail (d - b.sz) bs
      else { b with sz := b.sz - d } :: bs
    else b :: shrinkTail d bs

/-- Lines 119-150 of plotter.c starting at the head (prev is null there):
a fully released head is tombstoned in place (handle nulled, size zeroed)
rather than unlinked; afterwards the walk continues with prev non-null. -/
def shrinkList : ℕ → List Node → List Node
  | _, [] => []
  | d, h :: t =>
    if d = 0 then h :: t
    else if h.mem = true then
      if h.sz ≤ d then { h with mem := false, sz := 0 } :: shrinkTail (d - h.sz) t
      else { h with sz := h.sz - d } :: t
    else h :: shrinkTail d t

/-- reallocMemory (lines 83-154 of plotter.c).  Growth by more than 1 MiB
is split into spansOf delta recursive calls, each with the same stale
totalSpace and the target totalSpace + delta / spans; growth by at most
1 MiB is a single growStep; shrinking walks the list.  The extra ℕ is the
fresh node-identity supply threaded through. -/
def reallocMemory (c : ℕ) (l : List Node) (totalSpace requested : ℕ) : ℕ × List Node :=
  if h1 : totalSpace < requested then
    if h2 : 1024 * 1024 < requested - totalSpace then
      (List.range (spansOf (requested - totalSpace))).foldl
        (fun p _ => reallocMemory p.1 p.2 totalSpace
          (totalSpace + (requested - totalSpace) / spansOf (requested - totalSpace)))
        (c, l)
    else growStep c (requested - totalSpace) l
  else if requested < totalSpace then
    (c, shrinkList (totalSpace - requested) l)
  else (c, l)
termination_by requested - totalSpace
decreasing_by
  have hs := spansOf_two_le h2
  have hlt : (requested - totalSpace) / spansOf (requested - totalSpace) <
      requested - totalSpace :=
    Nat.div_lt_self (by omega) (by omega)
  omega

/-- The sum of the sizes of the live (non-null-handle) regions. -/
def sumLive : List Node → ℕ
  | [] => 0
  | n :: t => (if n.mem = true then n.sz else 0) + sumLive t

/-- Lines 66-74 of plotter.c, the loop body of destroyMemory: block trails
one node behind the cursor, so the loop frees each node (and its handle if
set) while a successor exists. -/
def destroyLoop (b : Node) : List Node → List Event
  | [] => []
  | x :: xs =>
    (if b.mem = true then [Event.freeMem b.id] else []) ++
      (Event.freeNode b.id :: destroyLoop x xs)

/-- destroyMemory (lines 66-74 of plotter.c) as the sequence of free events
it performs, starting with block at the head. -/
def destroyMemory : List Node → List Event
  | [] => []
  | b :: rest => destroyLoop b rest

/-- The complete teardown performed by printGraph (lines 188-189 of
plotter.c): destroyMemory followed by free(memory) on the head node. -/
def teardownEvents (l : List Node) : List Event :=
  destroyMemory l ++
    (match l with
      | [] => []
      | b :: _ => [Event.freeNode b.id])

/-- Modelled from the spec, for comparison with teardownEvents: teardown
releases every non-head region's handle, then the head's own handle if it
is set, then the head node itself. -/
def specTeardownEvents (l : List Node) : List Event :=
  match l with
  | [] => []
  | h :: t =>
    (t.filter (fun n => n.mem)).map (fun n => Event.freeMem n.id) ++
      (if h.mem = true then [Event.freeMem h.id] else []) ++ [Event.freeNode h.id]

/-- The ledger as printGraph initializes it (lines 170-175 of plotter.c):
one head node with null handle and size zero.  Node identity 0 is the
head; fresh identities start at 1. -/
def initLedger : List Node := [{ id := 0, sz := 0, mem := false }]

/-- A sequence of reconcile calls, each given explicitly as a pair
(totalSpace, requested), applied in order to a counter/ledger state. -/
def applyOps (ops : List (ℕ × ℕ)) (st : ℕ × List Node) : ℕ × List Node :=
  ops.foldl (fun p op => reallocMemory p.1 p.2 op.1 op.2) st

/-- The shape left behind by a shrink that releases every live region:
the head is tombstoned in place if it was live, and of the tail only the
dead nodes remain. -/
def tombstoneHead : List Node → List Node
  | [] => []
  | h :: t =>
    (if h.mem = true then { h with mem := false, sz := 0 } else h) ::
      t.filter (fun n => !n.mem)

/-- The null-handle-iff-zero-size invariant of the ledger regions. -/
def okInv (l : List Node) : Prop := ∀ n ∈ l, n.mem = false ↔ n.sz = 0

lemma realloc_noop (c : ℕ) (l : List Node) (t : ℕ) : reallocMemory c l t t = (c, l) := by
  rw [reallocMemory]
  simp

lemma realloc_shrink (c : ℕ) (l : List Node) (t r : ℕ) (h : r < t) :
    reallocMemory c l t r = (c, shrinkList (t - r) l) := by
  rw [reallocMemory]
  rw [dif_neg (by omega), if_pos h]

lemma realloc_grow_small (c : ℕ) (l : List Node) (t r : ℕ) (h1 : t < r)
    (h2 : r - t ≤ 1024 * 1024) :
    reallocMemory c l t r = growStep c (r - t) l := by
  rw [reallocMemory]
  rw [dif_pos h1, dif_neg (by omega)]

lemma realloc_grow_big (c : ℕ) (l : List Node) (t r : ℕ) (h1 : t < r)
    (h2 : 1024 * 1024 < r - t) :
    reallocMemory c l t r =
      (List.range (spansOf (r - t))).foldl
        (fun p _ => reallocMemory p.1 p.2 t (t + (r - t) / spansOf (r - t))) (c, l) := by
  rw [reallocMemory]
  rw [dif_pos h1, dif_pos h2]

lemma foldl_inv {α β : Type} (P : β → Prop) (g : β → α → β)
    (h : ∀ b a, P b → P (g b a)) : ∀ (L : List α) (b : β), P b → P (L.foldl g b) := by
  intro L
  induction L with
  | nil => intro b hb; exact hb
  | cons x xs ih => intro b hb; exact ih _ (h b x hb)

lemma realloc_pres (P : List Node → Prop)
    (hgrow : ∀ c d l, 0 < d → P l → P (growStep c d l).2)
    (hshrink : ∀ d l, P l → P (shrinkList d l)) :
    ∀ m c l t r, r - t ≤ m → P l → P (reallocMemory c l t r).2 := by
  intro m
  induction m with
  | zero =>
    intro c l t r hm hp
    by_cases h2 : r < t
    · rw [realloc_shrink c l t r h2]
      exact hshrink _ _ hp
    · have : r = t := by omega
      subst this
      rw [realloc_noop]
      exact hp
  | succ m ih =>
    intro c l t r hm hp
    by_cases h1 : t < r
    · by_cases h2 : 1024 * 1024 < r - t
      · rw [realloc_grow_big c l t r h1 h2]
        have hs := spansOf_two_le h2
        have hd : (r - t) / spansOf (r - t) < r - t := Nat.div_lt_self (by omega) (by omega)
        refine foldl_inv (fun p => P p.2) _ ?_ _ (c, l) hp
        intro b a hb
        exact ih b.1 b.2 t (t + (r - t) / spansOf (r - t)) (by omega) hb
      · rw [realloc_grow_small c l t r h1 (by omega)]
        exact hgrow _ _ _ (by omega) hp
    · by_cases h2 : r < t
      · rw [realloc_shrink c l t r h2]
        exact hshrink _ _ hp
      · have : r = t := by omega
        subst this
        rw [realloc_noop]
        exact hp

lemma sumLive_cons (n : Node) (t : List Node) :
    sumLive (n :: t) = (if n.mem = true then n.sz else 0) + sumLive t := rfl

lemma shrinkTail_sumLive : ∀ (l : List Node) (d : ℕ), d ≤ sumLive l →
    sumLive (shrinkTail d l) = sumLive l - d := by
  intro l
  induction l with
  | nil =>
    intro d hd
    simp [shrinkTail, sumLive]
  | cons b bs ih =>
    intro d hd
    rw [sumLive_cons] at hd
    by_cases hd0 : d = 0
    · subst hd0
      simp [shrinkTail]
    · by_cases hb : b.mem = true
      · rw [hb] at hd
        simp only [if_true] at hd
        by_cases hsz : b.sz ≤ d
        · rw [show shrinkTail d (b :: bs) = shrinkTail (d - b.sz) bs from by
            simp [shrinkTail, hd0, hb, hsz]]
          rw [ih _ (by omega), sumLive_cons, hb]
          simp only [if_true]
          omega
        · rw [show shrinkTail d (b :: bs) = { b with sz := b.sz - d } :: bs from by
            simp [shrinkTail, hd0, hb, hsz]]
          rw [sumLive_cons, sumLive_cons]
          simp only [hb, if_true]
          omega
      · rw [if_neg hb, zero_add] at hd
        rw [show shrinkTail d (b :: bs) = b :: shrinkTail d bs from by
          simp [shrinkTail, hd0, hb]]
        rw [sumLive_cons, sumLive_cons, ih _ hd, if_neg hb]
        omega

lemma shrinkList_sumLive (l : List Node) (d : ℕ) (hd : d ≤ sumLive l) :
    sumLive (shrinkList d l) = sumLive l - d := by
  cases l with
  | nil => simp [shrinkList, sumLive]
  | cons h t =>
    rw [sumLive_cons] at hd
    by_cases hd0 : d = 0
    · subst hd0
      simp [shrinkList]
    · by_cases hm : h.mem = true
      · rw [hm] at hd
        simp only [if_true] at hd
        by_cases hsz : h.sz ≤ d
        · rw [show shrinkList d (h :: t) =
              { h with mem := false, sz := 0 } :: shrinkTail (d - h.sz) t from by
            simp [shrinkList, hd0, hm, hsz]]
          rw [sumLive_cons, shrinkTail_sumLive _ _ (by omega)]
          simp only [Bool.false_eq_true, if_false]
          rw [sumLive_cons, hm]
          simp only [if_true]
          omega
        · rw [show shrinkList d (h :: t) = { h with sz := h.sz - d } :: t from by
            simp [shrinkList, hd0, hm, hsz]]
          rw [sumLive_cons, sumLive_cons]
          simp only [hm, if_true]
          omega
      · rw [if_neg hm, zero_add] at hd
        rw [show shrinkList d (h :: t) = h :: shrinkTail d t from by
          simp [shrinkList, hd0, hm]]
        rw [sumLive_cons, sumLive_cons, shrinkTail_sumLive _ _ hd, if_neg hm]
        omega

lemma shrinkTail_all : ∀ (l : List Node) (d : ℕ), sumLive l < d →
    shrinkTail d l = l.filter (fun n => !n.mem) := by
  intro l
  induction l with
  | nil =>
    intro d hd
    simp [shrinkTail]
  | cons b bs ih =>
    intro d hd
    rw [sumLive_cons] at hd
    have hd0 : ¬ d = 0 := by omega
    by_cases hb : b.mem = true
    · rw [hb] at hd
      simp only [if_true] at hd
      have hsz : b.sz ≤ d := by omega
      rw [show shrinkTail d (b :: bs) = shrinkTail (d - b.sz) bs from by
        simp [shrinkTail, hd0, hb, hsz]]
      rw [ih _ (by omega)]
      simp [List.filter_cons, hb]
    · rw [if_neg hb, zero_add] at hd
      rw [show shrinkTail d (b :: bs) = b :: shrinkTail d bs from by
        simp [shrinkTail, hd0, hb]]
      rw [ih _ hd]
      simp [List.filter_cons, hb]

lemma shrinkList_all (l : List Node) (d : ℕ) (hd : sumLive l < d) :
    shrinkList d l = tombstoneHead l := by
  cases l with
  | nil => simp [shrinkList, tombstoneHead]
  | cons h t =>
    rw [sumLive_cons] at hd
    have hd0 : ¬ d = 0 := by omega
    by_cases hm : h.mem = true
    · rw [hm] at hd
      simp only [if_true] at hd
      have hsz : h.sz ≤ d := by omega
      rw [show shrinkList d (h :: t) =
          { h with mem := false, sz := 0 } :: shrinkTail (d - h.sz) t from by
        simp [shrinkList, hd0, hm, hsz]]
      rw [shrinkTail_all _ _ (by omega)]
      simp [tombstoneHead, hm]
    · rw [if_neg hm, zero_add] at hd
      rw [show shrinkList d (h :: t) = h :: shrinkTail d t from by
        simp [shrinkList, hd0, hm]]
      rw [shrinkTail_all _ _ hd]
      simp [tombstoneHead, hm]

lemma sumLive_deadFilter (l : List Node) : sumLive (l.filter (fun n => !n.mem)) = 0 := by
  induction l with
  | nil => rfl
  | cons b bs ih =>
    by_cases hb : b.mem = true
    · simp [List.filter_cons, hb, ih]
    · simp [List.filter_cons, hb, sumLive_cons, ih]

lemma sumLive_tombstoneHead (l : List Node) : sumLive (tombstoneHead l) = 0 := by
  cases l with
  | nil => rfl
  | cons h t =>
    by_cases hm : h.mem = true <;>
      simp [tombstoneHead, hm, sumLive_cons, sumLive_deadFilter]

lemma growStep_headId (c d : ℕ) (l : List Node) :
    ((growStep c d l).2).head?.map Node.id = l.head?.map Node.id := by
  cases l with
  | nil => rfl
  | cons h t =>
    by_cases hm : h.mem = true <;> simp [growStep, hm]

lemma shrinkList_headId (d : ℕ) (l : List Node) :
    (shrinkList d l).head?.map Node.id = l.head?.map Node.id := by
  cases l with
  | nil => rfl
  | cons h t =>
    by_cases hd0 : d = 0
    · subst hd0
      simp [shrinkList]
    · by_cases hm : h.mem = true
      · by_cases hsz : h.sz ≤ d <;> simp [shrinkList, hd0, hm, hsz]
      · simp [shrinkList, hd0, hm]

lemma realloc_headId (c : ℕ) (l : List Node) (t r : ℕ) :
    ((reallocMemory c l t r).2).head?.map Node.id = l.head?.map Node.id := by
  refine realloc_pres (fun x => x.head?.map Node.id = l.head?.map Node.id) ?_ ?_
    (r - t) c l t r le_rfl rfl
  · intro c' d' l' _ hp
    rw [growStep_headId]
    exact hp
  · intro d' l' hp
    rw [shrinkList_headId]
    exact hp

lemma growStep_okInv (c d : ℕ) (l : List Node) (hd : 0 < d) (h : okInv l) :
    okInv (growStep c d l).2 := by
  cases l with
  | nil => simpa [growStep] using h
  | cons x t =>
    intro n hn
    by_cases hm : x.mem = true
    · simp only [growStep, hm, if_true, List.mem_cons] at hn
      rcases hn with h1 | h1 | h1
      · rw [h1]
        exact h x (List.mem_cons_self x t)
      · subst h1
        simp
        omega
      · exact h n (List.mem_cons_of_mem x h1)
    · simp only [growStep, hm, if_false, List.mem_cons] at hn
      rcases hn with h1 | h1 | h1
      · subst h1
        simp
        omega
      · subst h1
        simp
        omega
      · exact h n (List.mem_cons_of_mem x h1)

lemma shrinkTail_okInv : ∀ (l : List Node) (d : ℕ), okInv l → okInv (shrinkTail d l) := by
  intro l
  induction l with
  | nil =>
    intro d h
    simpa [shrinkTail] using h
  | cons b bs ih =>
    intro d h
    have hb' := h b (List.mem_cons_self b bs)
    have ht : okInv bs := fun n hn => h n (List.mem_cons_of_mem b hn)
    by_cases hd0 : d = 0
    · subst hd0
      simpa [shrinkTail] using h
    · by_cases hb : b.mem = true
      · by_cases hsz : b.sz ≤ d
        · rw [show shrinkTail d (b :: bs) = shrinkTail (d - b.sz) bs from by
            simp [shrinkTail, hd0, hb, hsz]]
          exact ih _ ht
        · rw [show shrinkTail d (b :: bs) = { b with sz := b.sz - d } :: bs from by
            simp [shrinkTail, hd0, hb, hsz]]
          intro n hn
          rcases List.mem_cons.mp hn with h1 | h1
          · subst h1
            simp [hb]
            omega
          · exact ht n h1
      · rw [show shrinkTail d (b :: bs) = b :: shrinkTail d bs from by
          simp [shrinkTail, hd0, hb]]
        intro n hn
        rcases List.mem_cons.mp hn with h1 | h1
        · subst h1
          exact hb'
        · exact ih d ht n h1

lemma shrinkList_okInv (l : List Node) (d : ℕ) (h : okInv l) : okInv (shrinkList d l) := by
  cases l with
  | nil => simpa [shrinkList] using h
  | cons x t =>
    have hx := h x (List.mem_cons_self x t)
    have ht : okInv t := fun n hn => h n (List.mem_cons_of_mem x hn)
    by_cases hd0 : d = 0
    · subst hd0
      simpa [shrinkList] using h
    · by_cases hm : x.mem = true
      · by_cases hsz : x.sz ≤ d
        · rw [show shrinkList d (x :: t) =
              { x with mem := false, sz := 0 } :: shrinkTail (d - x.sz) t from by
            simp [shrinkList, hd0, hm, hsz]]
          intro n hn
          rcases List.mem_cons.mp hn with h1 | h1
          · subst h1
            simp
          · exact shrinkTail_okInv t _ ht n h1
        · rw [show shrinkList d (x :: t) = { x with sz := x.sz - d } :: t from by
            simp [shrinkList, hd0, hm, hsz]]
          intro n hn
          rcases List.mem_cons.mp hn with h1 | h1
          · subst h1
            simp [hm]
            omega
          · exact ht n h1
      · rw [show shrinkList d (x :: t) = x :: shrinkTail d t from by
          simp [shrinkList, hd0, hm]]
        intro n hn
        rcases List.mem_cons.mp hn with h1 | h1
        · subst h1
          exact hx
        · exact shrinkTail_okInv t d ht n h1

lemma realloc_okInv (c : ℕ) (l : List Node) (t r : ℕ) (h : okInv l) :
    okInv (reallocMemory c l t r).2 :=
  realloc_pres okInv growStep_okInv (fun d x hx => shrinkList_okInv x d hx)
    (r - t) c l t r le_rfl h

lemma spansOf_exact {d k : ℕ} (hk : floatDivMiB d = (k : ℚ)) (hk24 : k ≤ 2 ^ 24) :
    spansOf d = k := by
  unfold spansOf
  rw [hk, truncToNat_natCast, floatRound_exact hk24]
  simp

lemma spansOf_ceil {d : ℕ} (h1 : 1024 * 1024 < d) (h2 : d ≤ 2 ^ 24) :
    spansOf d = (d + 1024 * 1024 - 1) / (1024 * 1024) := by
  have hf : floatDivMiB d = (d : ℚ) / ((1024 * 1024 : ℕ) : ℚ) := by
    unfold floatDivMiB
    rw [floatRound_exact h2]
  by_cases hdvd : (1024 * 1024 : ℕ) ∣ d
  · obtain ⟨q, hq⟩ := hdvd
    have hq24 : q ≤ 2 ^ 24 := by
      have : q ≤ d := by omega
      omega
    have hfd : floatDivMiB d = (q : ℚ) := by
      rw [hf, hq]
      push_cast
      field_simp
    rw [spansOf_exact hfd hq24]
    omega
  · have hs : truncToNat (floatDivMiB d) = d / (1024 * 1024) := by
      rw [hf, truncToNat_div]
    unfold spansOf
    rw [hs, hf]
    rw [floatRound_exact (show d / (1024 * 1024) ≤ 2 ^ 24 by omega)]
    rw [if_pos]
    · omega
    · intro heq
      apply hdvd
      rw [div_eq_iff (show ((1024 * 1024 : ℕ) : ℚ) ≠ 0 by push_cast; norm_num)] at heq
      have hd : d = d / (1024 * 1024) * (1024 * 1024) := by exact_mod_cast heq
      exact ⟨d / (1024 * 1024), by omega⟩

/-- Claim C1 is violated by the code (evaluation at the failing input):
on a freshly initialized ledger, the single reconcile call with
currentTotal 0 and targetTotal 1 leaves the live region sizes summing to
2, not to the requested 1, because the growth step fills the null-handle
head with delta bytes and then also inserts a second delta-byte region. -/
theorem c1_ledger_total_eval :
    sumLive (reallocMemory 1 initLedger 0 1).2 = 2 ∧
      sumLive (reallocMemory 1 initLedger 0 1).2 ≠ 1 := by
  rw [realloc_grow_small 1 initLedger 0 1 (by norm_num) (by norm_num)]
  exact ⟨by decide, by decide⟩

/-- Claim C2 is violated by the code (evaluation at the failing input):
a growth reconcile of delta 1 on a ledger whose head handle is null fills
the head with 1 byte and, contrary to the only-otherwise clause, also
inserts a brand-new 1-byte region after the head. -/
theorem c2_growth_eval :
    reallocMemory 1 initLedger 0 1 =
      (2, [{ id := 0, sz := 1, mem := true }, { id := 1, sz := 1, mem := true }]) := by
  rw [realloc_grow_small 1 initLedger 0 1 (by norm_num) (by norm_num)]
  decide

/-- Claim C3 is violated by the code (evaluation at the failing input):
tearing down the two-node ledger head(id 0, live) -> region(id 1, live)
frees the head's handle and the head node inside destroyMemory, never
releases region 1's handle, and then the caller frees the head node a
second time; the spec-described order releases region 1's handle, then the
head's handle, then the head node once. -/
theorem c3_teardown_eval :
    teardownEvents [{ id := 0, sz := 1, mem := true }, { id := 1, sz := 1, mem := true }] =
        [Event.freeMem 0, Event.freeNode 0, Event.freeNode 0] ∧
      specTeardownEvents
          [{ id := 0, sz := 1, mem := true }, { id := 1, sz := 1, mem := true }] =
        [Event.freeMem 1, Event.freeMem 0, Event.freeNode 0] ∧
      teardownEvents [{ id := 0, sz := 1, mem := true }, { id := 1, sz := 1, mem := true }] ≠
        specTeardownEvents
          [{ id := 0, sz := 1, mem := true }, { id := 1, sz := 1, mem := true }] := by
  decide

/-- Claim C4 is violated by the code (evaluation at the failing input):
growing a fresh ledger from 0 to 1 and then shrinking from 1 back to 0
leaves a leaked live region of 1 byte (the extra region inserted by the
double-allocating growth step), so the final live total is 1, not 0. -/
theorem c4_round_trip_eval :
    (applyOps [(0, 1), (1, 0)] (1, initLedger)).2 =
        [{ id := 0, sz := 0, mem := false }, { id := 1, sz := 1, mem := true }] ∧
      sumLive (applyOps [(0, 1), (1, 0)] (1, initLedger)).2 = 1 := by
  have e1 : reallocMemory 1 initLedger 0 1 =
      (2, [{ id := 0, sz := 1, mem := true }, { id := 1, sz := 1, mem := true }]) := by
    rw [realloc_grow_small 1 initLedger 0 1 (by norm_num) (by norm_num)]
    decide
  have e2 : reallocMemory 2
      [{ id := 0, sz := 1, mem := true }, { id := 1, sz := 1, mem := true }] 1 0 =
      (2, [{ id := 0, sz := 0, mem := false }, { id := 1, sz := 1, mem := true }]) := by
    rw [realloc_shrink _ _ _ _ (by norm_num)]
    decide
  have key : applyOps [(0, 1), (1, 0)] (1, initLedger) =
      (2, [{ id := 0, sz := 0, mem := false }, { id := 1, sz := 1, mem := true }]) := by
    show reallocMemory (reallocMemory 1 initLedger 0 1).1
        (reallocMemory 1 initLedger 0 1).2 1 0 = _
    rw [e1]
    exact e2
  rw [key]
  exact ⟨rfl, rfl⟩

/-- Claim C5: a shrink reconcile from a current total equal to the sum T
of the live region sizes down to T - delta, with 0 < delta <= T, leaves
the live region sizes summing to exactly T - delta, whatever mix of whole
releases and in-place shrinks the walk performs. -/
theorem c5_shrink_exact (c : ℕ) (l : List Node) (d : ℕ) (h1 : 0 < d)
    (h2 : d ≤ sumLive l) :
    sumLive (reallocMemory c l (sumLive l) (sumLive l - d)).2 = sumLive l - d := by
  rw [realloc_shrink _ _ _ _ (by omega)]
  show sumLive (shrinkList (sumLive l - (sumLive l - d)) l) = sumLive l - d
  have he : sumLive l - (sumLive l - d) = d := by omega
  rw [he]
  exact shrinkList_sumLive l d h2

/-- Witness for c5_shrink_exact at the concrete ledger with one live
2-byte region and delta 1. -/
theorem c5_shrink_exact_witness :
    0 < 1 ∧ 1 ≤ sumLive [({ id := 0, sz := 2, mem := true } : Node)] ∧
      sumLive (reallocMemory 1 [({ id := 0, sz := 2, mem := true } : Node)]
          (sumLive [({ id := 0, sz := 2, mem := true } : Node)])
          (sumLive [({ id := 0, sz := 2, mem := true } : Node)] - 1)).2 =
        sumLive [({ id := 0, sz := 2, mem := true } : Node)] - 1 :=
  ⟨Nat.one_pos, by decide,
    c5_shrink_exact 1 [{ id := 0, sz := 2, mem := true }] 1 Nat.one_pos (by decide)⟩

/-- Claim C6 as stated is false: for delta = 2 ^ 24 + 1 = 16777217 the
code computes 16 sub-steps (the float conversion of delta rounds down to
2 ^ 24 before dividing by 1 MiB), while ceil(delta / 1 MiB) is 17. -/
theorem c6_spans_counterexample :
    spansOf 16777217 = 16 ∧ (16777217 + 1024 * 1024 - 1) / (1024 * 1024) = 17 := by
  constructor
  · have hf : floatRound 16777217 = 16777216 := by decide
    have hfd : floatDivMiB 16777217 = ((16 : ℕ) : ℚ) := by
      unfold floatDivMiB
      rw [hf]
      push_cast
      norm_num
    exact spansOf_exact hfd (by norm_num)
  · norm_num

/-- Claim C6 amended: for growth deltas above 1 MiB the sub-step count is
the single-precision ceiling, which agrees with ceil(delta / 1 MiB)
whenever delta <= 2 ^ 24 (where the float conversion is exact); in
particular a growth of delta = 2.5 MiB = 2621440 bytes produces exactly 3
sub-step reconciliations, whose cumulative delta 3 * (2621440 / 3) is
2621439 bytes, one byte short of 2.5 MiB by integer division. -/
theorem c6_spans_amended (d : ℕ) (h1 : 1024 * 1024 < d) (h2 : d ≤ 2 ^ 24) :
    spansOf d = (d + 1024 * 1024 - 1) / (1024 * 1024) ∧
      spansOf 2621440 = 3 ∧
      spansOf 2621440 * (2621440 / spansOf 2621440) = 2621439 := by
  have h3 : spansOf 2621440 = 3 := by
    rw [spansOf_ceil (by norm_num) (by norm_num)]
  refine ⟨spansOf_ceil h1 h2, h3, ?_⟩
  rw [h3]

/-- Witness for c6_spans_amended at delta = 2621440. -/
theorem c6_spans_amended_witness :
    1024 * 1024 < 2621440 ∧ 2621440 ≤ 2 ^ 24 ∧
      (spansOf 2621440 = (2621440 + 1024 * 1024 - 1) / (1024 * 1024) ∧
        spansOf 2621440 = 3 ∧
        spansOf 2621440 * (2621440 / spansOf 2621440) = 2621439) :=
  ⟨by norm_num, by norm_num, c6_spans_amended 2621440 (by norm_num) (by norm_num)⟩

/-- Claim C7: across every sequence of reconcile calls starting from the
freshly initialized ledger, the head node (identity 0) is still the first
node of the list: it is never unlinked and its storage is never freed,
only its size and handle fields change. -/
theorem c7_head_persistence :
    ∀ ops : List (ℕ × ℕ), ∃ s b rest,
      (applyOps ops (1, initLedger)).2 = { id := 0, sz := s, mem := b } :: rest := by
  intro ops
  have key : ((applyOps ops (1, initLedger)).2).head?.map Node.id = some 0 := by
    unfold applyOps
    refine foldl_inv (fun p => (p.2).head?.map Node.id = some 0)
      (fun p op => reallocMemory p.1 p.2 op.1 op.2) ?_ ops (1, initLedger) rfl
    intro b a hb
    rw [realloc_headId]
    exact hb
  cases hl : (applyOps ops (1, initLedger)).2 with
  | nil =>
    rw [hl] at key
    simp at key
  | cons x rest =>
    rw [hl] at key
    obtain ⟨xi, xs, xm⟩ := x
    simp at key
    subst key
    exact ⟨xs, xm, rest, rfl⟩

/-- Claim C8: after initialization and after every sequence of reconcile
calls from the initial ledger, every region has a null handle exactly
when its size is zero (all allocations are modelled as succeeding). -/
theorem c8_null_iff_zero :
    okInv initLedger ∧
      ∀ ops : List (ℕ × ℕ), okInv (applyOps ops (1, initLedger)).2 := by
  have hinit : okInv initLedger := by
    intro n hn
    simp [initLedger] at hn
    subst hn
    simp
  refine ⟨hinit, fun ops => ?_⟩
  unfold applyOps
  refine foldl_inv (fun p => okInv p.2) (fun p op => reallocMemory p.1 p.2 op.1 op.2)
    ?_ ops (1, initLedger) hinit
  intro b a hb
  exact realloc_okInv b.1 b.2 a.1 a.2 hb

/-- Claim C9: whenever the growth delta exceeds 1 MiB the computed span
count is at least 2, so the delta of every recursive sub-call, namely
delta / spansOf delta, is strictly smaller than delta; this is the
decreasing measure by which reallocMemory is defined to terminate. -/
theorem c9_termination (d : ℕ) (h : 1024 * 1024 < d) :
    2 ≤ spansOf d ∧ d / spansOf d < d := by
  have h2 := spansOf_two_le h
  exact ⟨h2, Nat.div_lt_self (by omega) (by omega)⟩

/-- Witness for c9_termination at delta = 2 ^ 20 + 1. -/
theorem c9_termination_witness :
    1024 * 1024 < 1048577 ∧ (2 ≤ spansOf 1048577 ∧ 1048577 / spansOf 1048577 < 1048577) :=
  ⟨by norm_num, c9_termination 1048577 (by norm_num)⟩

/-- Claim C10: a shrink reconcile whose delta exceeds the sum of the live
region sizes walks off the end of the list and returns normally, having
tombstoned a live head in place, unlinked every live non-head region, and
kept the dead nodes; the resulting live total is zero. -/
theorem c10_overshrink (c : ℕ) (l : List Node) (t r : ℕ) (h1 : r < t)
    (h2 : sumLive l < t - r) :
    (reallocMemory c l t r).2 = tombstoneHead l ∧
      sumLive (reallocMemory c l t r).2 = 0 := by
  rw [realloc_shrink c l t r h1]
  show shrinkList (t - r) l = tombstoneHead l ∧ sumLive (shrinkList (t - r) l) = 0
  have he := shrinkList_all l (t - r) h2
  rw [he]
  exact ⟨rfl, sumLive_tombstoneHead l⟩

/-- Witness for c10_overshrink at the one-live-node ledger with a shrink
from total 2 to total 0 while only 1 live byte exists. -/
theorem c10_overshrink_witness :
    (0 : ℕ) < 2 ∧ sumLive [({ id := 0, sz := 1, mem := true } : Node)] < 2 - 0 ∧
      ((reallocMemory 1 [({ id := 0, sz := 1, mem := true } : Node)] 2 0).2 =
          tombstoneHead [({ id := 0, sz := 1, mem := true } : Node)] ∧
        sumLive (reallocMemory 1 [({ id := 0, sz := 1, mem := true } : Node)] 2 0).2 = 0) :=
  ⟨by norm_num, by decide,
    c10_overshrink 1 [{ id := 0, sz := 1, mem := true }] 2 0 (by norm_num) (by decide)⟩
